import Mathlib

/-!
Verification of the Huffman compression tool (`src/compression_tool/compression.py`).

The Python module is embedded shallowly:

* Text is `List Char`; on-disk bytes are `List Nat` (each entry one byte value).
* `HuffmanNode`-or-`None` object references become the inductive `HuffmanNode`
  below, whose `nil` constructor stands for Python `None`.  A `HuffmanTree`
  dataclass is just its (possibly `None`) root, so trees are represented by
  their root `HuffmanNode`.
* Fallible Python code (ValueError, OverflowError, KeyError, IndexError,
  UnicodeDecodeError, HuffmanDecodeError) returns `Except PyError`.
* `decoded_from_header` mutates a deque of aliased node objects; the object
  graph is rendered as an arena (`List ArenaNode`) addressed by creation
  index, exactly in the style the object identity semantics dictates: the
  deque holds indices, attribute assignment becomes `List.set`.
* Machine integers do not occur: Python ints are `Nat` (or `Int` where a
  subtraction such as `2 * len(characters) - 1` can go negative).
-/

/-- The exception kinds raised by the Python module (or by the built-in
operations it calls).  `HuffmanDecodeError` messages are replaced by an
enumeration, one constructor per distinct message in the source. -/
inductive HuffmanDecodeMsg where
  /-- "The number of characters dont fit the tree." (line 174) -/
  | charCountMismatch : HuffmanDecodeMsg
  /-- "The root of the tree is an intermediate node has no children." (line 179) -/
  | rootInternalWithoutChildren : HuffmanDecodeMsg
  /-- "The root of the tree is a leaf node with children." (line 184) -/
  | rootLeafWithChildren : HuffmanDecodeMsg
  /-- "There are intermediate nodes with no children." (line 204) -/
  | danglingInternalNodes : HuffmanDecodeMsg
deriving DecidableEq, Repr

/-- Python exceptions surfaced by the embedded code. -/
inductive PyError where
  | valueError : PyError
  | overflowError : PyError
  | keyError : PyError
  | indexError : PyError
  | unicodeDecodeError : PyError
  | huffmanDecodeError (msg : HuffmanDecodeMsg) : PyError
deriving DecidableEq, Repr

/-- `HuffmanNode | None`: `nil` is Python `None`, `leaf` is `HuffmanLeafNode`,
`internal` is `HuffmanInternalNode` (children default to `None` = `nil`). -/
inductive HuffmanNode where
  | nil : HuffmanNode
  | leaf (weight : Nat) (value : Char) : HuffmanNode
  | internal (weight : Nat) (left right : HuffmanNode) : HuffmanNode
deriving DecidableEq, Repr

/-- `HuffmanTree.weight`: weight stored in the root, `0` for the empty tree. -/
def HuffmanNode.weight : HuffmanNode → Nat
  | .nil => 0
  | .leaf w _ => w
  | .internal w _ _ => w

/-- Number of (non-`None`) nodes of a tree. -/
def HuffmanNode.size : HuffmanNode → Nat
  | .nil => 0
  | .leaf _ _ => 1
  | .internal _ l r => 1 + l.size + r.size

/-- Number of leaves of a tree. -/
def HuffmanNode.leaves : HuffmanNode → Nat
  | .nil => 0
  | .leaf _ _ => 1
  | .internal _ l r => l.leaves + r.leaves

/-- Total node count of a queue of roots (termination measure for the
breadth-first traversals). -/
def queueSize (q : List HuffmanNode) : Nat := (q.map HuffmanNode.size).sum

/-- `HuffmanTree.huffman_merge`: combine two trees under a fresh internal
root whose weight is the sum of the two weights. -/
def huffman_merge (elementLeft elementRight : HuffmanNode) : HuffmanNode :=
  .internal (elementLeft.weight + elementRight.weight) elementLeft elementRight

/-- Insert into an ascending-by-weight list, in front of the first element of
weight `≥` the inserted one (this makes `sortByWeight` a stable sort). -/
def insertByWeight (x : HuffmanNode) : List HuffmanNode → List HuffmanNode
  | [] => [x]
  | y :: ys =>
    if x.weight ≤ y.weight then x :: y :: ys else y :: insertByWeight x ys

/-- Python `sorted(nodes, key=lambda x: x.weight)`: a stable sort by weight
(insertion sort is stable, like timsort: equal weights keep input order). -/
def sortByWeight : List HuffmanNode → List HuffmanNode
  | [] => []
  | x :: xs => insertByWeight x (sortByWeight xs)

/-- `HuffmanTree.huffman_tree_step`: sort by weight, merge the two lightest,
put the merged tree at the end of the remaining list.  Callers only invoke it
with at least two elements; the catch-all branch is unreachable. -/
def huffman_tree_step (elements : List HuffmanNode) : List HuffmanNode :=
  match sortByWeight elements with
  | a :: b :: rest => rest ++ [huffman_merge a b]
  | other => other

/-- The `while len(nodes) > 1` loop of `HuffmanTree.from_frequency`. -/
def buildLoop (nodes : List HuffmanNode) : List HuffmanNode :=
  if _h : nodes.length > 1 then buildLoop (huffman_tree_step nodes) else nodes
termination_by nodes.length
decreasing_by
  have hins : ∀ (x : HuffmanNode) (l : List HuffmanNode),
      (insertByWeight x l).length = l.length + 1 := by
    intro x l
    induction l with
    | nil => rfl
    | cons y ys ih =>
      unfold insertByWeight
      by_cases h : x.weight ≤ y.weight <;> simp [h, ih]
  have hsortlen : ∀ l : List HuffmanNode, (sortByWeight l).length = l.length := by
    intro l
    induction l with
    | nil => rfl
    | cons x xs ih => simp [sortByWeight, hins, ih]
  have hs : (sortByWeight nodes).length = nodes.length := hsortlen nodes
  unfold huffman_tree_step
  rcases hsort : sortByWeight nodes with _ | ⟨a, _ | ⟨b, rest⟩⟩ <;>
    simp [hsort] at hs ⊢ <;> omega

/-- `HuffmanTree.from_frequency`: one leaf per `(character, count)` pair of
the frequency table (a `Counter`, so keys are distinct and iterate in
insertion order), then repeated `huffman_tree_step`s down to one tree.
`list.headD .nil` renders `nodes[0]`, which the loop guard makes total. -/
def from_frequency (frequency : List (Char × Nat)) : HuffmanNode :=
  let nodes := frequency.map fun p => HuffmanNode.leaf p.2 p.1
  if nodes = [] then .nil else (buildLoop nodes).headD .nil

/-- The queue loop of `HuffmanTree.generate_table`: breadth-first, at an
internal node enqueue the left child with prefix extended by `0 = false` and
the right child with `1 = true`; at a leaf record `(value, prefix)`.  The
resulting association list is in dict insertion order. -/
def generate_table_aux : List (HuffmanNode × List Bool) → List (Char × List Bool)
  | [] => []
  | (.nil, _) :: rest => generate_table_aux rest
  | (.leaf _ v, p) :: rest => (v, p) :: generate_table_aux rest
  | (.internal _ l r, p) :: rest =>
      generate_table_aux (rest ++ [(l, p ++ [false]), (r, p ++ [true])])
termination_by q => 2 * queueSize (q.map Prod.fst) + q.length
decreasing_by all_goals simp [queueSize, HuffmanNode.size] <;> omega

/-- `HuffmanTree.generate_table` (the `root is None` early return coincides
with the queue loop consuming the single `nil` entry). -/
def generate_table (root : HuffmanNode) : List (Char × List Bool) :=
  generate_table_aux [(root, [])]

/-- The queue loop of `HuffmanTree.encode_tree`: breadth-first, `1 = true`
for an internal node (children enqueued), `0 = false` for a leaf (value
appended to the character string), `None` entries skipped. -/
def encode_tree_aux : List HuffmanNode → List Bool × List Char
  | [] => ([], [])
  | .nil :: rest => encode_tree_aux rest
  | .leaf _ v :: rest =>
      let p := encode_tree_aux rest
      (false :: p.1, v :: p.2)
  | .internal _ l r :: rest =>
      let p := encode_tree_aux (rest ++ [l, r])
      (true :: p.1, p.2)
termination_by q => 2 * queueSize q + q.length
decreasing_by all_goals simp [queueSize, HuffmanNode.size] <;> omega

/-- `HuffmanTree.encode_tree`: shape bitstring and leaf characters. -/
def encode_tree (root : HuffmanNode) : List Bool × List Char :=
  encode_tree_aux [root]

/-- `int(bitstring, 2)` for a (nonempty) string of `0`/`1` characters. -/
def bitsToNat (bits : List Bool) : Nat :=
  bits.foldl (fun a b => 2 * a + (if b then 1 else 0)) 0

/-- `n.to_bytes(k)` without the fit check: the `k` big-endian base-256
digits of `n` (callers that must range-check do it themselves). -/
def natToBytesBE : Nat → Nat → List Nat
  | 0, _ => []
  | k + 1, n => natToBytesBE k (n / 256) ++ [n % 256]

/-- `len(...).to_bytes(4)`: OverflowError when the value needs more than
four bytes. -/
def toBytes4 (n : Nat) : Except PyError (List Nat) :=
  if n < 2 ^ 32 then .ok (natToBytesBE 4 n) else .error .overflowError

/-- `int.bit_length()`, via structural recursion on a fuel argument (`n`
itself bounds the number of halvings). -/
def bitLenFuel : Nat → Nat → Nat
  | 0, _ => 0
  | f + 1, n => if n = 0 then 0 else bitLenFuel f (n / 2) + 1

/-- `int.bit_length()`. -/
def bitLen (n : Nat) : Nat := bitLenFuel n n

/-- `encode_binary_string`: `int(string, 2)` raises ValueError on the empty
string; otherwise the number is rendered with `(bit_length + 7) // 8`
bytes (so a string of only `0`s becomes zero bytes). -/
def encode_binary_string (string : List Bool) : Except PyError (List Nat) :=
  if string = [] then .error .valueError
  else
    let num := bitsToNat string
    .ok (natToBytesBE ((bitLen num + 7) / 8) num)

/-- UTF-8 encoding of one character (CPython `str.encode()`, which cannot
fail on the valid scalar values a Lean `Char` carries). -/
def charUtf8 (c : Char) : List Nat :=
  let n := c.toNat
  if n < 0x80 then [n]
  else if n < 0x800 then [0xC0 + n / 64, 0x80 + n % 64]
  else if n < 0x10000 then
    [0xE0 + n / 4096, 0x80 + n / 64 % 64, 0x80 + n % 64]
  else
    [0xF0 + n / 262144, 0x80 + n / 4096 % 64, 0x80 + n / 64 % 64, 0x80 + n % 64]

/-- `str.encode()` over a whole string. -/
def strEncode (s : List Char) : List Nat := (s.map charUtf8).flatten

/-- `HuffmanTree.generate_header`: 4-byte length of the packed shape, 4-byte
length of the encoded characters, packed shape, characters. -/
def generate_header (root : HuffmanNode) : Except PyError (List Nat) :=
  let p := encode_tree root
  match encode_binary_string p.1 with
  | .error e => .error e
  | .ok treeEncoded =>
    let charEncoded := strEncode p.2
    match toBytes4 treeEncoded.length, toBytes4 charEncoded.length with
    | .error e, _ => .error e
    | _, .error e => .error e
    | .ok l1, .ok l2 => .ok (l1 ++ l2 ++ treeEncoded ++ charEncoded)

/-- `collections.Counter(contents)`: counts in first-occurrence order. -/
def bumpCount : List (Char × Nat) → Char → List (Char × Nat)
  | [], c => [(c, 1)]
  | (k, n) :: rest, c =>
    if k = c then (k, n + 1) :: rest else (k, n) :: bumpCount rest c

/-- `collections.Counter(contents)`. -/
def counterOf (contents : List Char) : List (Char × Nat) :=
  contents.foldl bumpCount []

/-- Python dict read `d[k]` over an association list in insertion order:
the last binding of a key wins (`none` = KeyError at the call site). -/
def dictGet {α β : Type} [DecidableEq α] (l : List (α × β)) (k : α) : Option β :=
  l.foldl (fun acc p => if p.1 = k then some p.2 else acc) none

/-- `"".join(encoding_table[char] for char in contents)`: concatenate each
input character's code, KeyError on a character missing from the table. -/
def encodeContents (table : List (Char × List Bool)) :
    List Char → Except PyError (List Bool)
  | [] => .ok []
  | c :: rest =>
    match dictGet table c with
    | none => .error .keyError
    | some code =>
      match encodeContents table rest with
      | .error e => .error e
      | .ok r => .ok (code ++ r)

/-- The write loop of `Compress.compress`: successive 8-character slices of
the bit string, each through `int(slice, 2).to_bytes()` — `to_bytes()` with
no argument means one byte, and a final slice shorter than 8 bits is still
written as one byte (so those bits land right-aligned, not left-aligned). -/
def packChunks : List Bool → Except PyError (List Nat)
  | [] => .ok []
  | b :: rest =>
    let n := bitsToNat (List.take 8 (b :: rest))
    if n < 256 then
      match packChunks (List.drop 8 (b :: rest)) with
      | .error e => .error e
      | .ok more => .ok (n :: more)
    else .error .overflowError
termination_by l => l.length
decreasing_by
  simp only [List.length_drop, List.length_cons]
  omega

/-- `Compress.compress` minus the file I/O: frequency table, tree, code
table, header, then the body. `pad_length = len(encoded) % 8` zero bits are
appended when that remainder is nonzero (the source computes the pad as the
remainder itself, not its complement to 8). -/
def compress (contents : List Char) : Except PyError (List Nat) :=
  let frequency := counterOf contents
  let tree := from_frequency frequency
  let encodingTable := generate_table tree
  match generate_header tree with
  | .error e => .error e
  | .ok header =>
    match encodeContents encodingTable contents with
    | .error e => .error e
    | .ok encoded =>
      let padLength := encoded.length % 8
      let padded :=
        if padLength ≠ 0 then encoded ++ List.replicate padLength false else encoded
      match packChunks padded with
      | .error e => .error e
      | .ok body => .ok (header ++ body)

/-- One entry of the arena rendering of the object graph that
`decoded_from_header` builds by mutation: a `HuffmanLeafNode(weight=0)` or a
`HuffmanInternalNode(weight=0)` whose child attributes hold the index of the
child object (or `none` for the `None` default). -/
inductive ArenaNode where
  | leaf (value : Char) : ArenaNode
  | internal (left right : Option Nat) : ArenaNode
deriving DecidableEq, Repr

/-- The `for char in encoded_tree[1:]` loop of `decoded_from_header`.
State: the arena of already-created nodes (creation order = index), the
deque `nodes_to_process` of indices of internal nodes still missing a child,
and the next character index `i`.  A `0` bit makes a leaf from
`characters[i]` (IndexError if exhausted); the new node becomes the left
child of `nodes_to_process[0]` if that is still `None`, else the right child
of `nodes_to_process.popleft()` (IndexError if the deque is empty); a new
internal node is appended to the deque.  The catch-all arm (deque front not
an internal node) cannot happen, since only internal indices are enqueued. -/
def decodeLoop (characters : List Char) :
    List Bool → List ArenaNode → List Nat → Nat →
    Except PyError (List ArenaNode × List Nat)
  | [], arena, queue, _ => .ok (arena, queue)
  | bit :: restBits, arena, queue, i =>
    match (if bit then some (ArenaNode.internal none none, i)
           else (characters[i]?).map fun c => (ArenaNode.leaf c, i + 1)) with
    | none => .error .indexError
    | some (newNode, i') =>
      match queue with
      | [] => .error .indexError
      | d :: qrest =>
        match arena[d]? with
        | some (.internal none rc) =>
            decodeLoop characters restBits
              (arena.set d (.internal (some arena.length) rc) ++ [newNode])
              ((d :: qrest) ++ if bit then [arena.length] else []) i'
        | some (.internal (some lc) _) =>
            decodeLoop characters restBits
              (arena.set d (.internal (some lc) (some arena.length)) ++ [newNode])
              (qrest ++ if bit then [arena.length] else []) i'
        | _ => .error .indexError

/-- Read the tree value back off the arena: follow child indices, rendering
a missing child (`none`) as Python `None` = `nil`.  Children are created
after their parent, so the arena length bounds the depth and serves as
fuel. -/
def arenaToTree : Nat → List ArenaNode → Nat → HuffmanNode
  | 0, _, _ => .nil
  | fuel + 1, arena, idx =>
    match arena[idx]? with
    | some (.leaf c) => .leaf 0 c
    | some (.internal l r) =>
        .internal 0
          (match l with | some j => arenaToTree fuel arena j | none => .nil)
          (match r with | some j => arenaToTree fuel arena j | none => .nil)
    | none => .nil

/-- `HuffmanTree.decoded_from_header`.  The length guard compares Python
ints, so it is stated over `Int` (`2 * 0 - 1 = -1` must not truncate).  In
the one-node case the guard has already forced `len(characters) = 1`, so
`HuffmanLeafNode(value=characters)` holds that single character
(`headD` with an arbitrary default renders it). -/
def decoded_from_header (encodedTree : List Bool) (characters : List Char) :
    Except PyError HuffmanNode :=
  if (encodedTree.length : Int) ≠ 2 * (characters.length : Int) - 1 then
    .error (.huffmanDecodeError .charCountMismatch)
  else if encodedTree = [] then .ok .nil
  else if encodedTree.length = 1 then
    if encodedTree = [true] then
      .error (.huffmanDecodeError .rootInternalWithoutChildren)
    else .ok (.leaf 0 (characters.headD 'A'))
  else if encodedTree.headD false = false then
    .error (.huffmanDecodeError .rootLeafWithChildren)
  else
    match decodeLoop characters encodedTree.tail [ArenaNode.internal none none] [0] 0 with
    | .error e => .error e
    | .ok (arena, queue) =>
      if queue = [] then .ok (arenaToTree arena.length arena 0)
      else .error (.huffmanDecodeError .danglingInternalNodes)

/-- `bin(n)[2:]` without the rjust: most-significant bit first, no leading
zeros, and `bin(0)[2:] = "0"`.  Structural recursion on fuel (`n` bounds the
number of halvings). -/
def natBinDigitsFuel : Nat → Nat → List Bool
  | 0, _ => []
  | f + 1, n => if n = 0 then [] else natBinDigitsFuel f (n / 2) ++ [n % 2 == 1]

/-- `bin(n)[2:]`. -/
def natToBinStr (n : Nat) : List Bool :=
  if n = 0 then [false] else natBinDigitsFuel n n

/-- `bin(byte)[2:].rjust(8, "0")`: the byte expanded to (at least) eight
bits, most significant first. -/
def byteToBits (b : Nat) : List Bool :=
  let s := natToBinStr b
  List.replicate (8 - s.length) false ++ s

/-- Whether a byte is a UTF-8 continuation byte. -/
def isCont (b : Nat) : Prop := 0x80 ≤ b ∧ b ≤ 0xBF

instance (b : Nat) : Decidable (isCont b) := by unfold isCont; infer_instance

/-- CPython `bytes.decode()` (strict UTF-8: truncated sequences, stray
continuation bytes, overlong forms, surrogates and values beyond U+10FFFF
all raise UnicodeDecodeError).  Structural recursion on fuel (each step
consumes at least one byte, so the byte count is enough fuel). -/
def utf8DecodeFuel : Nat → List Nat → Except PyError (List Char)
  | _, [] => .ok []
  | 0, _ :: _ => .error .unicodeDecodeError
  | f + 1, b0 :: rest =>
    if b0 < 0x80 then
      match utf8DecodeFuel f rest with
      | .error e => .error e
      | .ok cs => .ok (Char.ofNat b0 :: cs)
    else if 0xC2 ≤ b0 ∧ b0 ≤ 0xDF then
      match rest with
      | b1 :: rest' =>
        if isCont b1 then
          match utf8DecodeFuel f rest' with
          | .error e => .error e
          | .ok cs => .ok (Char.ofNat ((b0 - 0xC0) * 64 + (b1 - 0x80)) :: cs)
        else .error .unicodeDecodeError
      | [] => .error .unicodeDecodeError
    else if 0xE0 ≤ b0 ∧ b0 ≤ 0xEF then
      match rest with
      | b1 :: b2 :: rest' =>
        if (if b0 = 0xE0 then 0xA0 ≤ b1 ∧ b1 ≤ 0xBF
            else if b0 = 0xED then 0x80 ≤ b1 ∧ b1 ≤ 0x9F
            else isCont b1) ∧ isCont b2 then
          match utf8DecodeFuel f rest' with
          | .error e => .error e
          | .ok cs => .ok (Char.ofNat ((b0 - 0xE0) * 4096 + (b1 - 0x80) * 64 + (b2 - 0x80)) :: cs)
        else .error .unicodeDecodeError
      | _ => .error .unicodeDecodeError
    else if 0xF0 ≤ b0 ∧ b0 ≤ 0xF4 then
      match rest with
      | b1 :: b2 :: b3 :: rest' =>
        if (if b0 = 0xF0 then 0x90 ≤ b1 ∧ b1 ≤ 0xBF
            else if b0 = 0xF4 then 0x80 ≤ b1 ∧ b1 ≤ 0x8F
            else isCont b1) ∧ isCont b2 ∧ isCont b3 then
          match utf8DecodeFuel f rest' with
          | .error e => .error e
          | .ok cs => .ok (Char.ofNat ((b0 - 0xF0) * 262144 + (b1 - 0x80) * 4096
              + (b2 - 0x80) * 64 + (b3 - 0x80)) :: cs)
        else .error .unicodeDecodeError
      | _ => .error .unicodeDecodeError
    else .error .unicodeDecodeError

/-- `bytes.decode()`. -/
def utf8Decode (bs : List Nat) : Except PyError (List Char) :=
  utf8DecodeFuel bs.length bs

/-- `int.from_bytes(bs)` (big endian). -/
def intFromBytes (bs : List Nat) : Nat := bs.foldl (fun a b => 256 * a + b) 0

/-- `HuffmanTree.decode_header`: split off the two 4-byte lengths, rebuild
the shape bitstring through `bin(int.from_bytes(...))[2:]` (leading zero
bits of the packed shape are lost here, and zero bytes give `"0"`), decode
the characters, rebuild the tree and return its prefix table plus the
offset where the packed body starts. -/
def decode_header (fileContents : List Nat) :
    Except PyError (List (Char × List Bool) × Nat) :=
  let treeLength := intFromBytes (fileContents.take 4)
  let encodingLength := intFromBytes ((fileContents.drop 4).take 4)
  let contentsIndex := 8 + treeLength + encodingLength
  let treeData := natToBinStr (intFromBytes ((fileContents.drop 8).take treeLength))
  match utf8Decode ((fileContents.drop (8 + treeLength)).take encodingLength) with
  | .error e => .error e
  | .ok characters =>
    match decoded_from_header treeData characters with
    | .error e => .error e
    | .ok tree => .ok (generate_table tree, contentsIndex)

/-- The bit loop of `decode_file_contents`: accumulate bits into `char`,
and whenever the accumulated string is a key of the inverted prefix table,
emit the corresponding symbol and reset the accumulator.  Whatever is left
in the accumulator when the bits run out is dropped. -/
def decodeBitsAux (table : List (List Bool × Char)) (acc : List Bool) :
    List Bool → List Char
  | [] => []
  | b :: rest =>
    match dictGet table (acc ++ [b]) with
    | some ch => ch :: decodeBitsAux table [] rest
    | none => decodeBitsAux table (acc ++ [b]) rest

/-- The accumulator (`char`) left over after the bit loop of
`decode_file_contents` has run. -/
def decodeAcc (table : List (List Bool × Char)) (acc : List Bool) :
    List Bool → List Bool
  | [] => acc
  | b :: rest =>
    match dictGet table (acc ++ [b]) with
    | some _ => decodeAcc table [] rest
    | none => decodeAcc table (acc ++ [b]) rest

/-- `HuffmanTree.decode_file_contents` (`decompress_file` minus the file
read): decode the header, invert the prefix table, expand the body bytes to
bits most-significant-first, and run the table walk. -/
def decode_file_contents (fileContents : List Nat) : Except PyError (List Char) :=
  match decode_header fileContents with
  | .error e => .error e
  | .ok p =>
    let invertedTable := p.1.map fun q => (q.2, q.1)
    let encodedText := ((fileContents.drop p.2).map byteToBits).flatten
    .ok (decodeBitsAux invertedTable [] encodedText)

/-- Well-formed tree: nonempty, and every internal node has both children
(no `None` under an internal node). -/
def wfTree : HuffmanNode → Bool
  | .nil => false
  | .leaf _ _ => true
  | .internal _ l r => wfTree l && wfTree r

/-- Forget the weights of a tree (what deserialization reconstructs). -/
def zeroWeights : HuffmanNode → HuffmanNode
  | .nil => .nil
  | .leaf _ v => .leaf 0 v
  | .internal _ l r => .internal 0 (zeroWeights l) (zeroWeights r)

/-- Modelled from the spec: the body packing the spec describes — the
concatenated codes, zero-padded at the end to a byte boundary, packed
most-significant-bit-first — for comparison against what `compress`
actually writes. -/
def specPackBits (bits : List Bool) : List Nat :=
  let padded := bits ++ List.replicate ((8 - bits.length % 8) % 8) false
  (List.range (padded.length / 8)).map fun k =>
    bitsToNat ((padded.drop (8 * k)).take 8)

/-- Proof-side: the arena `decodeLoop` ends up with, described directly.  A
queue of pending subtrees whose roots will get creation indices
`c, c + 1, ...` contributes its nodes in breadth-first order; an internal
root at index `c` in a queue of length `m` gets its children at indices
`c + m` and `c + m + 1`. -/
def arenaOf : List HuffmanNode → Nat → List ArenaNode
  | [], _ => []
  | .nil :: rest, c => arenaOf rest c
  | .leaf _ v :: rest, c => .leaf v :: arenaOf rest (c + 1)
  | .internal _ l r :: rest, c =>
      .internal (some (c + rest.length + 1)) (some (c + rest.length + 2)) ::
        arenaOf (rest ++ [l, r]) (c + 1)
termination_by q _ => 2 * queueSize q + q.length
decreasing_by all_goals simp [queueSize, HuffmanNode.size] <;> omega

/-- Proof-side: fill the pending child slots of the decoder deque with the
consecutive indices `c, c + 1, ...` (`m` bounds the number of slots
filled). -/
def fillN : Nat → List ArenaNode → List Nat → Nat → List ArenaNode × List Nat
  | 0, arena, queue, _ => (arena, queue)
  | m + 1, arena, queue, c =>
    match queue with
    | [] => (arena, queue)
    | d :: qrest =>
      match arena[d]? with
      | some (.internal none rc) =>
          fillN m (arena.set d (.internal (some c) rc)) (d :: qrest) (c + 1)
      | some (.internal (some lc) _) =>
          fillN m (arena.set d (.internal (some lc) (some c))) qrest (c + 1)
      | _ => (arena, queue)

/-- Proof-side: how many child slots the decoder deque still has to fill
(2 per pending node, 1 if the front node already has its left child). -/
def slots (arena : List ArenaNode) : List Nat → Nat
  | [] => 0
  | d :: qrest =>
    (match arena[d]? with | some (.internal none none) => 2 | _ => 1) + 2 * qrest.length

/-- Proof-side invariant on the decoder state: deque indices strictly
increase, point into the arena, and denote internal nodes whose right child
is unset; all but the front also have the left child unset. -/
def PendingOk (arena : List ArenaNode) (queue : List Nat) : Prop :=
  queue.Pairwise (· < ·) ∧
  (∀ d ∈ queue, d < arena.length) ∧
  (∀ d ∈ queue, ∃ lc, arena[d]? = some (.internal lc none)) ∧
  (∀ d ∈ queue.tail, arena[d]? = some (.internal none none))

/-- C10: the shape bitstring `10000` has length `2 * 3 - 1` for its three
declared symbols, so it passes the length guard, yet `decoded_from_header`
fails with an IndexError — not a `HuffmanDecodeError` — because after the
third `0` bit completes the tree, the fourth still reads
`nodes_to_process[0]` from the now-empty deque. -/
theorem shape_10000_three_chars_index_error :
    decoded_from_header [true, false, false, false, false] ['a', 'b', 'c'] =
      .error .indexError := by rfl

/-- C9: whenever the shape bitstring length differs from `2N - 1` for the
`N` declared symbols, `decoded_from_header` rejects the header with a typed
`HuffmanDecodeError` before building anything. -/
theorem malformed_header_length_rejected (encodedTree : List Bool)
    (characters : List Char)
    (h : (encodedTree.length : Int) ≠ 2 * (characters.length : Int) - 1) :
    decoded_from_header encodedTree characters =
      .error (.huffmanDecodeError .charCountMismatch) := by
  simp [decoded_from_header, h]

/-- Witness for the C9 theorem at the empty bitstring with one symbol. -/
theorem malformed_header_length_rejected_witness :
    ((([] : List Bool).length : Int) ≠ 2 * ((['a'] : List Char).length : Int) - 1) ∧
      decoded_from_header [] ['a'] = .error (.huffmanDecodeError .charCountMismatch) :=
  ⟨by decide, malformed_header_length_rejected [] ['a'] (by decide)⟩

/-- C6: the worked frequency example, inserted in the stated order, builds
the canonical code table (the association list is in dict insertion order;
read as a dict it is exactly the stated table). -/
theorem worked_example_code_table :
    generate_table (from_frequency
      [('E', 120), ('U', 37), ('D', 42), ('L', 42), ('C', 32), ('M', 24),
       ('Z', 2), ('K', 7)]) =
    [('E', [false]), ('U', [true, false, false]), ('D', [true, false, true]),
     ('L', [true, true, false]), ('C', [true, true, true, false]),
     ('M', [true, true, true, true, true]),
     ('Z', [true, true, true, true, false, false]),
     ('K', [true, true, true, true, false, true])] := by
  simp [generate_table, from_frequency, buildLoop, huffman_tree_step, sortByWeight,
    insertByWeight, huffman_merge, HuffmanNode.weight, generate_table_aux]

/-- C1: the round-trip fails.  On the text `EU` the encoded body is the two
bits `01`; the source pads with `len % 8 = 2` zero bits (not six) and
`int(...).to_bytes()` right-aligns the resulting four bits in the final
byte, so the file body is `0x04` and decoding yields `EEEEEUEE ≠ EU`. -/
theorem compress_roundtrip_fails_on_EU :
    compress ['E', 'U'] = .ok [0, 0, 0, 1, 0, 0, 0, 2, 4, 69, 85, 4] ∧
    decode_file_contents [0, 0, 0, 1, 0, 0, 0, 2, 4, 69, 85, 4] =
      .ok ['E', 'E', 'E', 'E', 'E', 'U', 'E', 'E'] := by
  constructor
  · simp [compress, counterOf, bumpCount, from_frequency, buildLoop, huffman_tree_step,
      sortByWeight, insertByWeight, huffman_merge, HuffmanNode.weight, generate_table,
      generate_table_aux, generate_header, encode_tree, encode_tree_aux,
      encode_binary_string, bitsToNat, bitLen, bitLenFuel, natToBytesBE, toBytes4,
      strEncode, charUtf8, dictGet, encodeContents, packChunks]
  · simp [decode_file_contents, decode_header, intFromBytes, natToBinStr,
      natBinDigitsFuel, utf8Decode, utf8DecodeFuel, decoded_from_header, decodeLoop,
      arenaToTree, generate_table, generate_table_aux, byteToBits, decodeBitsAux,
      dictGet, isCont]

/-- C2: the packed body is not the MSB-first byte-boundary packing of the
concatenated codes.  For `EU` the concatenated codes are `01`; the packing
the claim describes gives the single byte `0x40`, but `compress` writes
`0x04` (two — not six — pad bits are appended, and the four-bit final chunk
lands right-aligned in its byte). -/
theorem packed_body_not_msb_padded_on_EU :
    encodeContents (generate_table (from_frequency (counterOf ['E', 'U']))) ['E', 'U'] =
      .ok [false, true] ∧
    compress ['E', 'U'] = .ok ([0, 0, 0, 1, 0, 0, 0, 2, 4, 69, 85] ++ [4]) ∧
    specPackBits [false, true] = [64] := by
  refine ⟨?_, ?_, by rfl⟩
  · simp [counterOf, bumpCount, from_frequency, buildLoop, huffman_tree_step,
      sortByWeight, insertByWeight, huffman_merge, HuffmanNode.weight, generate_table,
      generate_table_aux, dictGet, encodeContents]
  · simp [compress, counterOf, bumpCount, from_frequency, buildLoop, huffman_tree_step,
      sortByWeight, insertByWeight, huffman_merge, HuffmanNode.weight, generate_table,
      generate_table_aux, generate_header, encode_tree, encode_tree_aux,
      encode_binary_string, bitsToNat, bitLen, bitLenFuel, natToBytesBE, toBytes4,
      strEncode, charUtf8, dictGet, encodeContents, packChunks]

/-- C3: `XXXX` compresses without error to a header-only file (the single
symbol gets the empty code, so no body bits are written) and decompresses —
again without error — to the empty text, not to `XXXX`. -/
theorem single_symbol_roundtrip_returns_empty :
    compress ['X', 'X', 'X', 'X'] = .ok [0, 0, 0, 0, 0, 0, 0, 1, 88] ∧
    decode_file_contents [0, 0, 0, 0, 0, 0, 0, 1, 88] = .ok [] := by
  constructor
  · simp [compress, counterOf, bumpCount, from_frequency, buildLoop, huffman_tree_step,
      sortByWeight, insertByWeight, huffman_merge, HuffmanNode.weight, generate_table,
      generate_table_aux, generate_header, encode_tree, encode_tree_aux,
      encode_binary_string, bitsToNat, bitLen, bitLenFuel, natToBytesBE, toBytes4,
      strEncode, charUtf8, dictGet, encodeContents, packChunks]
  · simp [decode_file_contents, decode_header, intFromBytes, natToBinStr,
      natBinDigitsFuel, utf8Decode, utf8DecodeFuel, decoded_from_header, decodeLoop,
      arenaToTree, generate_table, generate_table_aux, byteToBits, decodeBitsAux,
      dictGet, isCont]

/-- C4: compressing the empty text does not succeed: `encode_tree` yields
the empty shape string, and `encode_binary_string` calls `int("", 2)`,
raising a ValueError.  (Decoding an empty-tree header would not work
either: the length guard compares `0` with `2 * 0 - 1 = -1` and raises a
`HuffmanDecodeError`, making the `if not encoded_tree` branch dead code.) -/
theorem empty_input_compress_raises :
    compress [] = .error .valueError ∧
    encode_binary_string [] = .error .valueError ∧
    decoded_from_header [] [] = .error (.huffmanDecodeError .charCountMismatch) := by
  refine ⟨?_, by rfl, by rfl⟩
  simp [compress, counterOf, from_frequency, generate_table, generate_table_aux,
    generate_header, encode_tree, encode_tree_aux, encode_binary_string]

/-- C5 counterexample: a compressed file (codes `a = 0`, `b = 10`, `c = 11`,
body byte `0x5F = 01011111`) whose final accumulated bit `1` matches no
code: decoding returns `abcc` with no error, silently dropping that bit. -/
theorem decode_trailing_bits_silently_dropped_example :
    decode_file_contents [0, 0, 0, 1, 0, 0, 0, 3, 20, 97, 98, 99, 95] =
      .ok ['a', 'b', 'c', 'c'] := by
  simp [decode_file_contents, decode_header, intFromBytes, natToBinStr,
    natBinDigitsFuel, utf8Decode, utf8DecodeFuel, decoded_from_header, decodeLoop,
    arenaToTree, generate_table, generate_table_aux, byteToBits, decodeBitsAux,
    dictGet, isCont]

theorem decodeAcc_nil (table : List (List Bool × Char)) (acc : List Bool) :
    decodeAcc table acc [] = acc := rfl

/-- The table walk splits over an append: the second half starts from the
accumulator the first half ends with. -/
theorem decodeBitsAux_append (table : List (List Bool × Char)) :
    ∀ (xs ys acc : List Bool),
      decodeBitsAux table acc (xs ++ ys) =
        decodeBitsAux table acc xs ++ decodeBitsAux table (decodeAcc table acc xs) ys := by
  intro xs
  induction xs with
  | nil => intro ys acc; simp [decodeBitsAux, decodeAcc]
  | cons b rest ih =>
    intro ys acc
    simp only [List.cons_append, decodeBitsAux, decodeAcc]
    cases h : dictGet table (acc ++ [b]) with
    | some ch => simp [h, ih]
    | none => simp [h, ih]

/-- If no accumulated run over `tr` (starting from `acc`) ever matches a
table key, the walk over `tr` emits nothing. -/
theorem decodeBitsAux_no_match (table : List (List Bool × Char)) :
    ∀ (tr acc : List Bool),
      (∀ k, 0 < k → k ≤ tr.length → dictGet table (acc ++ tr.take k) = none) →
      decodeBitsAux table acc tr = [] := by
  intro tr
  induction tr with
  | nil => intro acc _; rfl
  | cons b rest ih =>
    intro acc h
    have h1 : dictGet table (acc ++ [b]) = none := by
      have := h 1 (by omega) (by simp)
      simpa using this
    simp only [decodeBitsAux, h1]
    apply ih
    intro k hk hk'
    have := h (k + 1) (by omega) (by simp; omega)
    simpa [List.append_assoc] using this

/-- C5 amended: when the bits after `bits` (with the accumulator empty
there) never extend to any code, `decode_file_contents`' bit walk silently
drops them and returns exactly what `bits` alone decodes to — no error is
raised for trailing unmatched bits. -/
theorem decode_discards_unmatched_trailing (table : List (List Bool × Char))
    (bits trailing : List Bool)
    (hreset : decodeAcc table [] bits = [])
    (hnomatch : ∀ k, 0 < k → k ≤ trailing.length →
      dictGet table (trailing.take k) = none) :
    decodeBitsAux table [] (bits ++ trailing) = decodeBitsAux table [] bits := by
  rw [decodeBitsAux_append, hreset]
  have hz : decodeBitsAux table [] trailing = [] := by
    apply decodeBitsAux_no_match
    intro k hk hk'
    simpa using hnomatch k hk hk'
  rw [hz, List.append_nil]

/-- Witness for the C5 amended theorem: code table `0 = a`, body `0` then a
dangling `1` bit. -/
theorem decode_discards_unmatched_trailing_witness :
    decodeAcc [([false], 'a')] [] [false] = [] ∧
      decodeBitsAux [([false], 'a')] [] ([false] ++ [true]) =
        decodeBitsAux [([false], 'a')] [] [false] :=
  ⟨by decide, decode_discards_unmatched_trailing [([false], 'a')] [false] [true]
    (by decide)
    (fun k hk hk' => by
      have hk1 : k = 1 := by
        simp only [List.length_cons, List.length_nil] at hk'
        omega
      subst hk1
      decide)⟩

theorem incomp_ext {p q : List Bool} (e : List Bool)
    (h1 : ¬ p <+: q) (h2 : ¬ q <+: p) :
    ¬ p <+: (q ++ e) ∧ ¬ (q ++ e) <+: p := by
  constructor
  · intro hpe
    cases List.prefix_or_prefix_of_prefix hpe (List.prefix_append q e) with
    | inl h => exact h1 h
    | inr h => exact h2 h
  · intro hqe
    exact h2 ((List.prefix_append q e).trans hqe)

theorem incomp_siblings (p : List Bool) :
    ¬ (p ++ [false]) <+: (p ++ [true]) ∧ ¬ (p ++ [true]) <+: (p ++ [false]) := by
  constructor <;> intro h <;> have he := h.eq_of_length (by simp) <;> simp at he

/-- Every code the breadth-first walk emits extends the prefix of some queue
entry. -/
theorem generate_table_aux_extends :
    ∀ (n : Nat) (q : List (HuffmanNode × List Bool)),
      2 * queueSize (q.map Prod.fst) + q.length ≤ n →
      ∀ e ∈ generate_table_aux q, ∃ pr ∈ q, pr.2 <+: e.2 := by
  intro n
  induction n with
  | zero =>
    intro q hq e he
    match q with
    | [] => simp [generate_table_aux] at he
    | _ :: _ => simp at hq
  | succ n ih =>
    intro q hq e he
    match q with
    | [] => simp [generate_table_aux] at he
    | (.nil, p) :: rest =>
      simp only [generate_table_aux] at he
      obtain ⟨pr, hpr, hpre⟩ := ih rest (by
        simp [queueSize, HuffmanNode.size] at hq ⊢; omega) e he
      exact ⟨pr, List.mem_cons_of_mem _ hpr, hpre⟩
    | (.leaf w v, p) :: rest =>
      simp only [generate_table_aux] at he
      rcases List.mem_cons.mp he with hhead | htail
      · exact ⟨(.leaf w v, p), List.mem_cons_self _ _, by simp [hhead]⟩
      · obtain ⟨pr, hpr, hpre⟩ := ih rest (by
          simp [queueSize, HuffmanNode.size] at hq ⊢; omega) e htail
        exact ⟨pr, List.mem_cons_of_mem _ hpr, hpre⟩
    | (.internal w l r, p) :: rest =>
      simp only [generate_table_aux] at he
      obtain ⟨pr, hpr, hpre⟩ := ih (rest ++ [(l, p ++ [false]), (r, p ++ [true])]) (by
        simp [queueSize, HuffmanNode.size] at hq ⊢; omega) e he
      rcases List.mem_append.mp hpr with hrest | hnew
      · exact ⟨pr, List.mem_cons_of_mem _ hrest, hpre⟩
      · refine ⟨(.internal w l r, p), List.mem_cons_self _ _, ?_⟩
        have hp : p <+: pr.2 := by
          simp only [List.mem_cons, List.not_mem_nil, or_false] at hnew
          rcases hnew with h | h <;> subst h <;> simp
        exact hp.trans hpre

/-- The breadth-first walk keeps queue prefixes pairwise incomparable, so
the emitted codes are pairwise incomparable. -/
theorem generate_table_aux_pairwise :
    ∀ (n : Nat) (q : List (HuffmanNode × List Bool)),
      2 * queueSize (q.map Prod.fst) + q.length ≤ n →
      q.Pairwise (fun a b => ¬ a.2 <+: b.2 ∧ ¬ b.2 <+: a.2) →
      (generate_table_aux q).Pairwise (fun a b => ¬ a.2 <+: b.2 ∧ ¬ b.2 <+: a.2) := by
  intro n
  induction n with
  | zero =>
    intro q hq _
    match q with
    | [] => simp [generate_table_aux]
    | _ :: _ => simp at hq
  | succ n ih =>
    intro q hq hpw
    match q with
    | [] => simp [generate_table_aux]
    | (.nil, p) :: rest =>
      simp only [generate_table_aux]
      exact ih rest (by simp [queueSize, HuffmanNode.size] at hq ⊢; omega)
        (List.Pairwise.of_cons hpw)
    | (.leaf w v, p) :: rest =>
      simp only [generate_table_aux]
      refine List.Pairwise.cons ?_
        (ih rest (by simp [queueSize, HuffmanNode.size] at hq ⊢; omega)
          (List.Pairwise.of_cons hpw))
      intro e he
      obtain ⟨pr, hpr, hpre⟩ := generate_table_aux_extends
        (2 * queueSize (rest.map Prod.fst) + rest.length) rest (le_refl _) e he
      obtain ⟨u, hu⟩ := hpre
      have hR := (List.pairwise_cons.mp hpw).1 pr hpr
      have := incomp_ext u hR.1 hR.2
      rw [hu] at this
      exact this
    | (.internal w l r, p) :: rest =>
      simp only [generate_table_aux]
      apply ih (rest ++ [(l, p ++ [false]), (r, p ++ [true])])
        (by simp [queueSize, HuffmanNode.size] at hq ⊢; omega)
      rw [List.pairwise_append]
      refine ⟨List.Pairwise.of_cons hpw, ?_, ?_⟩
      · simp only [List.pairwise_cons, List.Pairwise.nil, List.mem_singleton,
          List.not_mem_nil, false_implies, implies_true, and_true]
        intro e he
        subst he
        exact incomp_siblings p
      · intro a ha b hb
        have hR := (List.pairwise_cons.mp hpw).1 a ha
        simp only [List.mem_cons, List.not_mem_nil, or_false] at hb
        have hswap : ¬ a.2 <+: p ∧ ¬ p <+: a.2 := ⟨hR.2, hR.1⟩
        rcases hb with h | h <;> subst h <;>
          exact incomp_ext _ hswap.1 hswap.2

/-- Codes in any generated table are pairwise incomparable. -/
theorem generate_table_pairwise (root : HuffmanNode) :
    (generate_table root).Pairwise (fun a b => ¬ a.2 <+: b.2 ∧ ¬ b.2 <+: a.2) := by
  apply generate_table_aux_pairwise (2 * queueSize [root] + 1) [(root, [])]
  · simp
  · simp

theorem dictGet_foldl_mem {α β : Type} [DecidableEq α] :
    ∀ (l : List (α × β)) (acc : Option β) (k : α) (v : β),
      l.foldl (fun a p => if p.1 = k then some p.2 else a) acc = some v →
      (k, v) ∈ l ∨ acc = some v := by
  intro l
  induction l with
  | nil => intro acc k v h; exact Or.inr h
  | cons p rest ih =>
    intro acc k v h
    rcases ih _ k v h with hm | hacc
    · exact Or.inl (List.mem_cons_of_mem _ hm)
    · by_cases hp : p.1 = k
      · simp only [if_pos hp] at hacc
        left
        have hv : p.2 = v := Option.some.inj hacc
        have : p = (k, v) := by
          obtain ⟨p1, p2⟩ := p
          simp only at hp hv
          rw [hp, hv]
        rw [← this]
        exact List.mem_cons_self _ _
      · simp only [if_neg hp] at hacc
        exact Or.inr hacc

/-- A successful dict read is a binding of the association list. -/
theorem dictGet_mem {α β : Type} [DecidableEq α] (l : List (α × β)) (k : α) (v : β)
    (h : dictGet l k = some v) : (k, v) ∈ l := by
  rcases dictGet_foldl_mem l none k v h with hm | hacc
  · exact hm
  · simp at hacc

/-- C8: the code table of the tree built from any frequency table is prefix
free — the codes of two distinct symbols never stand in the prefix
relation. -/
theorem generate_table_prefix_free (frequency : List (Char × Nat)) (s t : Char)
    (cs ct : List Bool) (hst : s ≠ t)
    (hs : dictGet (generate_table (from_frequency frequency)) s = some cs)
    (ht : dictGet (generate_table (from_frequency frequency)) t = some ct) :
    ¬ cs <+: ct := by
  have hpw := generate_table_pairwise (from_frequency frequency)
  have hms := dictGet_mem _ _ _ hs
  have hmt := dictGet_mem _ _ _ ht
  have hsym : Symmetric (fun a b : Char × List Bool => ¬ a.2 <+: b.2 ∧ ¬ b.2 <+: a.2) :=
    fun a b hab => ⟨hab.2, hab.1⟩
  have hne : ((s, cs) : Char × List Bool) ≠ (t, ct) := by
    intro h
    exact hst (congrArg Prod.fst h)
  exact (hpw.forall hsym hms hmt hne).1

/-- Witness for the C8 theorem on the two-symbol table of `EU`. -/
theorem generate_table_prefix_free_witness :
    ('E' ≠ 'U') ∧ ¬ ([false] : List Bool) <+: [true] :=
  ⟨by decide, generate_table_prefix_free [('E', 1), ('U', 1)] 'E' 'U' [false] [true]
    (by decide)
    (by simp [generate_table, from_frequency, buildLoop, huffman_tree_step, sortByWeight,
      insertByWeight, huffman_merge, HuffmanNode.weight, generate_table_aux, dictGet])
    (by simp [generate_table, from_frequency, buildLoop, huffman_tree_step, sortByWeight,
      insertByWeight, huffman_merge, HuffmanNode.weight, generate_table_aux, dictGet])⟩

theorem queueSize_append (a b : List HuffmanNode) :
    queueSize (a ++ b) = queueSize a + queueSize b := by
  simp [queueSize]

theorem set_concat_length {α : Type} (B : List α) (x y : α) :
    (B ++ [x]).set B.length y = B ++ [y] := by
  rw [List.set_append_right B.length y (le_refl _)]
  simp

/-- Well-formed trees satisfy the full-binary-tree node count relation
`size + 1 = 2 * leaves`. -/
theorem wf_size_leaves :
    ∀ t : HuffmanNode, wfTree t = true → t.size + 1 = 2 * t.leaves := by
  intro t
  induction t with
  | nil => intro h; simp [wfTree] at h
  | leaf w v => intro _; simp [HuffmanNode.size, HuffmanNode.leaves]
  | internal w l r ihl ihr =>
    intro h
    rw [wfTree, Bool.and_eq_true] at h
    have h1 := ihl h.1
    have h2 := ihr h.2
    simp only [HuffmanNode.size, HuffmanNode.leaves]
    omega

theorem wf_size_pos (t : HuffmanNode) (h : wfTree t = true) : 1 ≤ t.size := by
  cases t with
  | nil => simp [wfTree] at h
  | leaf w v => simp [HuffmanNode.size]
  | internal w l r => simp [HuffmanNode.size]; omega

/-- The shape bitstring has one bit per node and the character string one
character per leaf, over a whole queue. -/
theorem encode_tree_aux_length :
    ∀ (n : Nat) (q : List HuffmanNode), 2 * queueSize q + q.length ≤ n →
      (encode_tree_aux q).1.length = queueSize q ∧
      (encode_tree_aux q).2.length = (q.map HuffmanNode.leaves).sum := by
  intro n
  induction n with
  | zero =>
    intro q hq
    match q with
    | [] => simp [encode_tree_aux, queueSize]
    | _ :: _ => simp at hq
  | succ n ih =>
    intro q hq
    match q with
    | [] => simp [encode_tree_aux, queueSize]
    | .nil :: rest =>
      have hr := ih rest (by simp [queueSize, HuffmanNode.size] at hq ⊢; omega)
      simp only [encode_tree_aux, queueSize, HuffmanNode.size, List.map_cons,
        List.sum_cons, HuffmanNode.leaves] at hr ⊢
      omega
    | .leaf w v :: rest =>
      have hr := ih rest (by simp [queueSize, HuffmanNode.size] at hq ⊢; omega)
      simp only [encode_tree_aux, queueSize, HuffmanNode.size, List.map_cons,
        List.sum_cons, HuffmanNode.leaves, List.length_cons] at hr ⊢
      omega
    | .internal w l r :: rest =>
      have hr := ih (rest ++ [l, r]) (by
        simp [queueSize, HuffmanNode.size] at hq ⊢; omega)
      simp only [encode_tree_aux, List.length_cons]
      constructor
      · have : queueSize (.internal w l r :: rest) = queueSize (rest ++ [l, r]) + 1 := by
          simp [queueSize, HuffmanNode.size]; omega
        rw [this, ← hr.1]
      · have : ((HuffmanNode.internal w l r :: rest).map HuffmanNode.leaves).sum =
            ((rest ++ [l, r]).map HuffmanNode.leaves).sum := by
          simp [HuffmanNode.leaves]; omega
        rw [this, ← hr.2]

/-- The proof-side arena of a queue has one entry per node. -/
theorem arenaOf_length :
    ∀ (n : Nat) (q : List HuffmanNode) (c : Nat),
      2 * queueSize q + q.length ≤ n → (arenaOf q c).length = queueSize q := by
  intro n
  induction n with
  | zero =>
    intro q c hq
    match q with
    | [] => simp [arenaOf, queueSize]
    | _ :: _ => simp at hq
  | succ n ih =>
    intro q c hq
    match q with
    | [] => simp [arenaOf, queueSize]
    | .nil :: rest =>
      have hr := ih rest c (by simp [queueSize, HuffmanNode.size] at hq ⊢; omega)
      simp only [arenaOf, queueSize, HuffmanNode.size, List.map_cons, List.sum_cons] at hr ⊢
      omega
    | .leaf w v :: rest =>
      have hr := ih rest (c + 1) (by simp [queueSize, HuffmanNode.size] at hq ⊢; omega)
      simp only [arenaOf, queueSize, HuffmanNode.size, List.map_cons, List.sum_cons,
        List.length_cons] at hr ⊢
      omega
    | .internal w l r :: rest =>
      have hr := ih (rest ++ [l, r]) (c + 1) (by
        simp [queueSize, HuffmanNode.size] at hq ⊢; omega)
      simp only [arenaOf, List.length_cons, hr, queueSize, List.map_append, List.map_cons,
        List.sum_append, List.sum_cons, HuffmanNode.size, List.map_nil, List.sum_nil]
      omega

/-- Filling slots only touches indices of the deque, so entries appended
beyond them pass through untouched. -/
theorem fillN_append :
    ∀ (m : Nat) (B C : List ArenaNode) (dq : List Nat) (c : Nat),
      (∀ d ∈ dq, d < B.length) →
      fillN m (B ++ C) dq c = ((fillN m B dq c).1 ++ C, (fillN m B dq c).2) := by
  intro m
  induction m with
  | zero => intro B C dq c _; simp [fillN]
  | succ m ih =>
    intro B C dq c h
    match dq with
    | [] => simp [fillN]
    | d :: qrest =>
      have hd : d < B.length := h d (List.mem_cons_self _ _)
      have hget : (B ++ C)[d]? = B[d]? := List.getElem?_append_left hd
      simp only [fillN, hget]
      cases hB : B[d]? with
      | none => simp
      | some a =>
        cases a with
        | leaf v => simp
        | internal lc rc =>
          cases lc with
          | none =>
            dsimp only
            rw [List.set_append_left d _ hd]
            rw [ih]
            intro d' hd'
            rw [List.length_set]
            exact h d' hd'
          | some j =>
            dsimp only
            rw [List.set_append_left d _ hd]
            rw [ih]
            intro d' hd'
            rw [List.length_set]
            exact h d' (List.mem_cons_of_mem _ hd')

theorem slots_pos (B : List ArenaNode) (d : Nat) (rest : List Nat) :
    1 ≤ slots B (d :: rest) := by
  simp only [slots]
  have h1 : 1 ≤ (match B[d]? with
      | some (ArenaNode.internal none none) => 2 | _ => 1) := by
    split <;> omega
  omega

/-- Filling through an extended deque: with `k` pending slots in `(B, dq)`,
appending a fresh internal node (index `B.length`) and its deque entry makes
`k + 2` fills end with exactly that node's two child slots (receiving the
indices `c + k` and `c + k + 1`), after which the deque is empty. -/
theorem fillN_snoc :
    ∀ (k : Nat) (B : List ArenaNode) (dq : List Nat) (c : Nat),
      PendingOk B dq → slots B dq = k →
      fillN (k + 2) (B ++ [ArenaNode.internal none none]) (dq ++ [B.length]) c =
        ((fillN k B dq c).1 ++ [ArenaNode.internal (some (c + k)) (some (c + k + 1))],
          []) := by
  intro k
  induction k with
  | zero =>
    intro B dq c _hpend hslots
    have hdq : dq = [] := by
      cases dq with
      | nil => rfl
      | cons d rest =>
        have := slots_pos B d rest
        omega
    subst hdq
    simp only [List.nil_append, fillN, List.getElem?_concat_length]
    rw [set_concat_length]
    simp only [List.getElem?_concat_length]
    rw [set_concat_length]
    simp [fillN]
  | succ k ih =>
    intro B dq c hpend hslots
    obtain ⟨hpw, hbound, hpend2, htail⟩ := hpend
    cases dq with
    | nil => simp [slots] at hslots
    | cons d qrest =>
      have hd : d < B.length := hbound d (List.mem_cons_self _ _)
      obtain ⟨lc, hB⟩ := hpend2 d (List.mem_cons_self _ _)
      have hgetBC : (B ++ [ArenaNode.internal none none])[d]? = B[d]? :=
        List.getElem?_append_left hd
      have hlt : ∀ d' ∈ qrest, d < d' := fun d' hd' => (List.pairwise_cons.mp hpw).1 d' hd'
      cases lc with
      | none =>
        have hBnn : B[d]? = some (.internal none none) := hB
        have hsl : 2 + 2 * qrest.length = k + 1 := by
          have h2 := hslots
          simp only [slots, hBnn] at h2
          omega
        set B' := B.set d (ArenaNode.internal (some c) none) with hBeq
        have hlen : B'.length = B.length := by simp [hBeq]
        have hstep : fillN (k + 1 + 2) (B ++ [ArenaNode.internal none none])
            ((d :: qrest) ++ [B.length]) c =
            fillN (k + 2) (B' ++ [ArenaNode.internal none none])
              ((d :: qrest) ++ [B'.length]) (c + 1) := by
          simp only [List.cons_append, fillN, hgetBC, hBnn]
          rw [List.set_append_left d _ hd, hlen]
        have hpend' : PendingOk B' (d :: qrest) := by
          refine ⟨hpw, ?_, ?_, ?_⟩
          · intro d' hd'
            rw [hlen]
            exact hbound d' hd'
          · intro d' hd'
            rcases List.mem_cons.mp hd' with h | h
            · subst h
              exact ⟨some c, by simp [hBeq, List.getElem?_set_self', hd]⟩
            · have hne : d ≠ d' := Nat.ne_of_lt (hlt d' h)
              refine ⟨none, ?_⟩
              rw [hBeq, List.getElem?_set_ne hne]
              exact htail d' h
          · intro d' hd'
            have hne : d ≠ d' := Nat.ne_of_lt (hlt d' hd')
            rw [hBeq, List.getElem?_set_ne hne]
            exact htail d' hd'
        have hslots' : slots B' (d :: qrest) = k := by
          have hB'd : B'[d]? = some (ArenaNode.internal (some c) none) := by
            simp [hBeq, List.getElem?_set_self', hd]
          simp only [slots, hB'd]
          omega
        have hRHS : fillN (k + 1) B (d :: qrest) c =
            fillN k B' (d :: qrest) (c + 1) := by
          simp only [fillN, hBnn]
        rw [hstep, ih B' (d :: qrest) (c + 1) hpend' hslots', hRHS]
        have e1 : c + 1 + k = c + (k + 1) := by omega
        rw [e1]
      | some j =>
        have hBj : B[d]? = some (.internal (some j) none) := hB
        have hsl : 1 + 2 * qrest.length = k + 1 := by
          have h2 := hslots
          simp only [slots, hBj] at h2
          omega
        set B' := B.set d (ArenaNode.internal (some j) (some c)) with hBeq
        have hlen : B'.length = B.length := by simp [hBeq]
        have hstep : fillN (k + 1 + 2) (B ++ [ArenaNode.internal none none])
            ((d :: qrest) ++ [B.length]) c =
            fillN (k + 2) (B' ++ [ArenaNode.internal none none])
              (qrest ++ [B'.length]) (c + 1) := by
          simp only [List.cons_append, fillN, hgetBC, hBj]
          rw [List.set_append_left d _ hd, hlen]
        have hpend' : PendingOk B' qrest := by
          refine ⟨List.Pairwise.of_cons hpw, ?_, ?_, ?_⟩
          · intro d' hd'
            rw [hlen]
            exact hbound d' (List.mem_cons_of_mem _ hd')
          · intro d' hd'
            have hne : d ≠ d' := Nat.ne_of_lt (hlt d' hd')
            refine ⟨none, ?_⟩
            rw [hBeq, List.getElem?_set_ne hne]
            exact htail d' hd'
          · intro d' hd'
            have hmem : d' ∈ qrest := List.mem_of_mem_tail hd'
            have hne : d ≠ d' := Nat.ne_of_lt (hlt d' hmem)
            rw [hBeq, List.getElem?_set_ne hne]
            exact htail d' hmem
        have hslots' : slots B' qrest = k := by
          cases qrest with
          | nil =>
            simp only [List.length_nil] at hsl
            simp only [slots]
            omega
          | cons e rest =>
            have hde : d ≠ e := Nat.ne_of_lt (hlt e (List.mem_cons_self _ _))
            have hB'e : B'[e]? = some (ArenaNode.internal none none) := by
              rw [hBeq, List.getElem?_set_ne hde]
              exact htail e (List.mem_cons_self _ _)
            simp only [slots, hB'e, List.length_cons] at hsl ⊢
            omega
        have hRHS : fillN (k + 1) B (d :: qrest) c =
            fillN k B' qrest (c + 1) := by
          simp only [fillN, hBj]
        rw [hstep, ih B' qrest (c + 1) hpend' hslots', hRHS]
        have e1 : c + 1 + k = c + (k + 1) := by omega
        rw [e1]
theorem drop_cons_get {α : Type} {l : List α} {i : Nat} {v : α} {cs : List α}
    (h : l.drop i = v :: cs) : l[i]? = some v ∧ l.drop (i + 1) = cs := by
  constructor
  · have h0 := List.getElem?_drop l i 0
    rw [h] at h0
    simpa using h0.symm
  · have h1 : l.drop (i + 1) = (l.drop i).drop 1 := (List.drop_drop 1 i l).symm
    rw [h1, h]
    rfl

theorem decode_sim :
    ∀ (n : Nat) (q : List HuffmanNode) (A : List ArenaNode) (dq : List Nat)
      (i : Nat) (chars : List Char),
      2 * queueSize q + q.length ≤ n →
      (∀ t ∈ q, wfTree t = true) →
      PendingOk A dq →
      slots A dq = q.length →
      chars.drop i = (encode_tree_aux q).2 →
      decodeLoop chars (encode_tree_aux q).1 A dq i =
        .ok ((fillN q.length A dq A.length).1 ++ arenaOf q A.length, []) := by
  intro n
  induction n with
  | zero =>
    intro q A dq i chars hn _ _ hslots _
    match q with
    | [] =>
      have hdq : dq = [] := by
        cases dq with
        | nil => rfl
        | cons d rest => have := slots_pos A d rest; simp at hslots; omega
      subst hdq
      simp [encode_tree_aux, decodeLoop, fillN, arenaOf]
    | _ :: _ => simp at hn
  | succ n ih =>
    intro q A dq i chars hn hwf hpend hslots hchars
    match q with
    | [] =>
      have hdq : dq = [] := by
        cases dq with
        | nil => rfl
        | cons d rest => have := slots_pos A d rest; simp at hslots; omega
      subst hdq
      simp [encode_tree_aux, decodeLoop, fillN, arenaOf]
    | .nil :: rest =>
      exact absurd (hwf .nil (List.mem_cons_self _ _)) (by simp [wfTree])
    | .leaf w v :: rest =>
      obtain ⟨hpw, hbound, hpend2, htail⟩ := hpend
      have hdqne : dq ≠ [] := by
        intro hdq
        subst hdq
        simp [slots] at hslots
      obtain ⟨d, qrest, rfl⟩ : ∃ d qrest, dq = d :: qrest := by
        cases dq with
        | nil => exact absurd rfl hdqne
        | cons d qrest => exact ⟨d, qrest, rfl⟩
      have hd : d < A.length := hbound d (List.mem_cons_self _ _)
      obtain ⟨lc, hB⟩ := hpend2 d (List.mem_cons_self _ _)
      have hlt : ∀ d' ∈ qrest, d < d' := fun d' hd' => (List.pairwise_cons.mp hpw).1 d' hd'
      -- character stream
      simp only [encode_tree_aux] at hchars ⊢
      obtain ⟨hchar, hdrop⟩ := drop_cons_get hchars
      -- measure for rest
      have hm : 2 * queueSize rest + rest.length ≤ n := by
        simp [queueSize, HuffmanNode.size] at hn ⊢
        omega
      have hwr : ∀ t ∈ rest, wfTree t = true := fun t ht => hwf t (List.mem_cons_of_mem _ ht)
      cases lc with
      | none =>
        have hBnn : A[d]? = some (.internal none none) := hB
        have hsl : 2 + 2 * qrest.length = rest.length + 1 := by
          have h2 := hslots
          simp only [slots, hBnn, List.length_cons] at h2
          omega
        set B := A.set d (ArenaNode.internal (some A.length) none) with hBdef
        have hlenB : B.length = A.length := by simp [hBdef]
        have hgetBd : B[d]? = some (ArenaNode.internal (some A.length) none) := by
          simp [hBdef, List.getElem?_set_self', hd]
        have hB'd : (B ++ [ArenaNode.leaf v])[d]? =
            some (ArenaNode.internal (some A.length) none) := by
          rw [List.getElem?_append_left (by rw [hlenB]; exact hd)]
          exact hgetBd
        have hpend' : PendingOk (B ++ [ArenaNode.leaf v]) (d :: qrest) := by
          refine ⟨hpw, ?_, ?_, ?_⟩
          · intro d' hd'
            have := hbound d' hd'
            simp only [List.length_append, List.length_cons, List.length_nil, hlenB]
            omega
          · intro d' hd'
            rcases List.mem_cons.mp hd' with h | h
            · subst h
              exact ⟨some A.length, hB'd⟩
            · have hne : d ≠ d' := Nat.ne_of_lt (hlt d' h)
              refine ⟨none, ?_⟩
              rw [List.getElem?_append_left
                (by rw [hlenB]; exact hbound d' (List.mem_cons_of_mem _ h))]
              rw [hBdef, List.getElem?_set_ne hne]
              exact htail d' h
          · intro d' hd'
            have hne : d ≠ d' := Nat.ne_of_lt (hlt d' hd')
            rw [List.getElem?_append_left
              (by rw [hlenB]; exact hbound d' (List.mem_cons_of_mem _ hd'))]
            rw [hBdef, List.getElem?_set_ne hne]
            exact htail d' hd'
        have hslots' : slots (B ++ [ArenaNode.leaf v]) (d :: qrest) = rest.length := by
          simp only [slots, hB'd]
          omega
        have happ := ih rest (B ++ [ArenaNode.leaf v]) (d :: qrest) (i + 1) chars
          hm hwr hpend' hslots' hdrop
        have hstep : decodeLoop chars (false :: (encode_tree_aux rest).1) A (d :: qrest) i =
            decodeLoop chars (encode_tree_aux rest).1 (B ++ [ArenaNode.leaf v])
              (d :: qrest) (i + 1) := by
          simp [decodeLoop, hchar, hBnn, hBdef]
        rw [hstep, happ]
        have hlen' : (B ++ [ArenaNode.leaf v]).length = A.length + 1 := by
          simp [hlenB]
        rw [hlen']
        have hfillstep : fillN ((HuffmanNode.leaf w v :: rest).length) A (d :: qrest) A.length =
            fillN rest.length B (d :: qrest) (A.length + 1) := by
          simp only [List.length_cons, fillN, hBnn]
        have hboundB : ∀ d' ∈ (d :: qrest), d' < B.length := by
          intro d' hd'
          rw [hlenB]
          exact hbound d' hd'
        rw [hfillstep,
          fillN_append rest.length B [ArenaNode.leaf v] (d :: qrest) (A.length + 1) hboundB]
        simp only [arenaOf]
        simp [List.append_assoc]
      | some j =>
        have hBj : A[d]? = some (.internal (some j) none) := hB
        have hsl : 1 + 2 * qrest.length = rest.length + 1 := by
          have h2 := hslots
          simp only [slots, hBj, List.length_cons] at h2
          omega
        set B := A.set d (ArenaNode.internal (some j) (some A.length)) with hBdef
        have hlenB : B.length = A.length := by simp [hBdef]
        have hqbound : ∀ d' ∈ qrest, d' < A.length :=
          fun d' hd' => hbound d' (List.mem_cons_of_mem _ hd')
        have hqget : ∀ d' ∈ qrest, (B ++ [ArenaNode.leaf v])[d']? =
            some (ArenaNode.internal none none) := by
          intro d' hd'
          have hne : d ≠ d' := Nat.ne_of_lt (hlt d' hd')
          rw [List.getElem?_append_left (by rw [hlenB]; exact hqbound d' hd')]
          rw [hBdef, List.getElem?_set_ne hne]
          exact htail d' hd'
        have hpend' : PendingOk (B ++ [ArenaNode.leaf v]) qrest := by
          refine ⟨List.Pairwise.of_cons hpw, ?_, ?_, ?_⟩
          · intro d' hd'
            have := hqbound d' hd'
            simp only [List.length_append, List.length_cons, List.length_nil, hlenB]
            omega
          · intro d' hd'
            exact ⟨none, hqget d' hd'⟩
          · intro d' hd'
            exact hqget d' (List.mem_of_mem_tail hd')
        have hslots' : slots (B ++ [ArenaNode.leaf v]) qrest = rest.length := by
          cases qrest with
          | nil =>
            simp only [List.length_nil] at hsl
            simp only [slots]
            omega
          | cons e erest =>
            have he := hqget e (List.mem_cons_self _ _)
            simp only [List.length_cons] at hsl
            simp only [slots, he, List.length_cons]
            omega
        have happ := ih rest (B ++ [ArenaNode.leaf v]) qrest (i + 1) chars
          hm hwr hpend' hslots' hdrop
        have hstep : decodeLoop chars (false :: (encode_tree_aux rest).1) A (d :: qrest) i =
            decodeLoop chars (encode_tree_aux rest).1 (B ++ [ArenaNode.leaf v])
              qrest (i + 1) := by
          simp [decodeLoop, hchar, hBj, hBdef]
        rw [hstep, happ]
        have hlen' : (B ++ [ArenaNode.leaf v]).length = A.length + 1 := by
          simp [hlenB]
        rw [hlen']
        have hfillstep : fillN ((HuffmanNode.leaf w v :: rest).length) A (d :: qrest) A.length =
            fillN rest.length B qrest (A.length + 1) := by
          simp only [List.length_cons, fillN, hBj]
        have hboundB : ∀ d' ∈ qrest, d' < B.length := by
          intro d' hd'
          rw [hlenB]
          exact hqbound d' hd'
        rw [hfillstep,
          fillN_append rest.length B [ArenaNode.leaf v] qrest (A.length + 1) hboundB]
        simp only [arenaOf]
        simp [List.append_assoc]
    | .internal w l r :: rest =>
      obtain ⟨hpw, hbound, hpend2, htail⟩ := hpend
      have hwfhead := hwf (.internal w l r) (List.mem_cons_self _ _)
      rw [wfTree, Bool.and_eq_true] at hwfhead
      have hdqne : dq ≠ [] := by
        intro hdq
        subst hdq
        simp [slots] at hslots
      obtain ⟨d, qrest, rfl⟩ : ∃ d qrest, dq = d :: qrest := by
        cases dq with
        | nil => exact absurd rfl hdqne
        | cons d qrest => exact ⟨d, qrest, rfl⟩
      have hd : d < A.length := hbound d (List.mem_cons_self _ _)
      obtain ⟨lc, hB⟩ := hpend2 d (List.mem_cons_self _ _)
      have hlt : ∀ d' ∈ qrest, d < d' := fun d' hd' => (List.pairwise_cons.mp hpw).1 d' hd'
      simp only [encode_tree_aux] at hchars ⊢
      have hm : 2 * queueSize (rest ++ [l, r]) + (rest ++ [l, r]).length ≤ n := by
        simp [queueSize, HuffmanNode.size] at hn ⊢
        omega
      have hwr : ∀ t ∈ rest ++ [l, r], wfTree t = true := by
        intro t ht
        rcases List.mem_append.mp ht with h | h
        · exact hwf t (List.mem_cons_of_mem _ h)
        · rcases List.mem_cons.mp h with h1 | h1
          · subst h1
            exact hwfhead.1
          · simp only [List.mem_singleton] at h1
            subst h1
            exact hwfhead.2
      cases lc with
      | none =>
        have hBnn : A[d]? = some (.internal none none) := hB
        have hsl : 2 + 2 * qrest.length = rest.length + 1 := by
          have h2 := hslots
          simp only [slots, hBnn, List.length_cons] at h2
          omega
        set B := A.set d (ArenaNode.internal (some A.length) none) with hBdef
        have hlenB : B.length = A.length := by simp [hBdef]
        have hgetBd : B[d]? = some (ArenaNode.internal (some A.length) none) := by
          simp [hBdef, List.getElem?_set_self', hd]
        have hqgetB : ∀ d' ∈ qrest, B[d']? = some (ArenaNode.internal none none) := by
          intro d' hd'
          have hne : d ≠ d' := Nat.ne_of_lt (hlt d' hd')
          rw [hBdef, List.getElem?_set_ne hne]
          exact htail d' hd'
        have hpendB : PendingOk B (d :: qrest) := by
          refine ⟨hpw, ?_, ?_, ?_⟩
          · intro d' hd'
            rw [hlenB]
            exact hbound d' hd'
          · intro d' hd'
            rcases List.mem_cons.mp hd' with h | h
            · subst h
              exact ⟨some A.length, hgetBd⟩
            · exact ⟨none, hqgetB d' h⟩
          · exact hqgetB
        have hslotsB : slots B (d :: qrest) = rest.length := by
          simp only [slots, hgetBd]
          omega
        have hB'd : (B ++ [ArenaNode.internal none none])[d]? =
            some (ArenaNode.internal (some A.length) none) := by
          rw [List.getElem?_append_left (by rw [hlenB]; exact hd)]
          exact hgetBd
        have hnew : (B ++ [ArenaNode.internal none none])[A.length]? =
            some (ArenaNode.internal none none) := by
          rw [← hlenB]
          exact List.getElem?_concat_length B _
        have hpend' : PendingOk (B ++ [ArenaNode.internal none none])
            ((d :: qrest) ++ [A.length]) := by
          refine ⟨?_, ?_, ?_, ?_⟩
          · rw [List.pairwise_append]
            refine ⟨hpw, List.pairwise_singleton _ _, ?_⟩
            intro a ha b hb
            simp only [List.mem_singleton] at hb
            subst hb
            exact hbound a ha
          · intro d' hd'
            simp only [List.length_append, List.length_cons, List.length_nil, hlenB]
            rcases List.mem_append.mp hd' with h | h
            · have := hbound d' h
              omega
            · simp only [List.mem_singleton] at h
              subst h
              omega
          · intro d' hd'
            rcases List.mem_append.mp hd' with h | h
            · rcases List.mem_cons.mp h with h1 | h1
              · subst h1
                exact ⟨some A.length, hB'd⟩
              · refine ⟨none, ?_⟩
                rw [List.getElem?_append_left
                  (by rw [hlenB]; exact hbound d' (List.mem_cons_of_mem _ h1))]
                exact hqgetB d' h1
            · simp only [List.mem_singleton] at h
              subst h
              exact ⟨none, hnew⟩
          · intro d' hd'
            simp only [List.cons_append, List.tail_cons] at hd'
            rcases List.mem_append.mp hd' with h | h
            · rw [List.getElem?_append_left
                (by rw [hlenB]; exact hbound d' (List.mem_cons_of_mem _ h))]
              exact hqgetB d' h
            · simp only [List.mem_singleton] at h
              subst h
              exact hnew
        have hslots' : slots (B ++ [ArenaNode.internal none none])
            ((d :: qrest) ++ [A.length]) = (rest ++ [l, r]).length := by
          simp only [List.cons_append, slots, hB'd, List.length_append,
            List.length_cons, List.length_nil]
          omega
        have happ := ih (rest ++ [l, r]) (B ++ [ArenaNode.internal none none])
          ((d :: qrest) ++ [A.length]) i chars hm hwr hpend' hslots' hchars
        have hstep : decodeLoop chars (true :: (encode_tree_aux (rest ++ [l, r])).1)
            A (d :: qrest) i =
            decodeLoop chars (encode_tree_aux (rest ++ [l, r])).1
              (B ++ [ArenaNode.internal none none]) ((d :: qrest) ++ [A.length]) i := by
          simp [decodeLoop, hBnn, hBdef]
        rw [hstep, happ]
        have hlen' : (B ++ [ArenaNode.internal none none]).length = A.length + 1 := by
          simp [hlenB]
        rw [hlen']
        have hsnoc := fillN_snoc rest.length B (d :: qrest) (A.length + 1) hpendB hslotsB
        rw [hlenB] at hsnoc
        have hlq : (rest ++ [l, r]).length = rest.length + 2 := by
          simp
        rw [hlq, hsnoc]
        have hfillstep : fillN ((HuffmanNode.internal w l r :: rest).length)
            A (d :: qrest) A.length =
            fillN rest.length B (d :: qrest) (A.length + 1) := by
          simp only [List.length_cons, fillN, hBnn]
        rw [hfillstep]
        simp only [arenaOf]
        have e1 : A.length + 1 + rest.length = A.length + rest.length + 1 := by omega
        rw [e1]
        have e2 : A.length + rest.length + 1 + 1 = A.length + rest.length + 2 := by omega
        rw [e2]
        simp [List.append_assoc]
      | some j =>
        have hBj : A[d]? = some (.internal (some j) none) := hB
        have hsl : 1 + 2 * qrest.length = rest.length + 1 := by
          have h2 := hslots
          simp only [slots, hBj, List.length_cons] at h2
          omega
        set B := A.set d (ArenaNode.internal (some j) (some A.length)) with hBdef
        have hlenB : B.length = A.length := by simp [hBdef]
        have hqbound : ∀ d' ∈ qrest, d' < A.length :=
          fun d' hd' => hbound d' (List.mem_cons_of_mem _ hd')
        have hqgetB : ∀ d' ∈ qrest, B[d']? = some (ArenaNode.internal none none) := by
          intro d' hd'
          have hne : d ≠ d' := Nat.ne_of_lt (hlt d' hd')
          rw [hBdef, List.getElem?_set_ne hne]
          exact htail d' hd'
        have hpendB : PendingOk B qrest := by
          refine ⟨List.Pairwise.of_cons hpw, ?_, ?_, ?_⟩
          · intro d' hd'
            rw [hlenB]
            exact hqbound d' hd'
          · intro d' hd'
            exact ⟨none, hqgetB d' hd'⟩
          · intro d' hd'
            exact hqgetB d' (List.mem_of_mem_tail hd')
        have hslotsB : slots B qrest = rest.length := by
          cases qrest with
          | nil =>
            simp only [List.length_nil] at hsl
            simp only [slots]
            omega
          | cons e erest =>
            have he := hqgetB e (List.mem_cons_self _ _)
            simp only [List.length_cons] at hsl
            simp only [slots, he, List.length_cons]
            omega
        have hqgetB' : ∀ d' ∈ qrest, (B ++ [ArenaNode.internal none none])[d']? =
            some (ArenaNode.internal none none) := by
          intro d' hd'
          rw [List.getElem?_append_left (by rw [hlenB]; exact hqbound d' hd')]
          exact hqgetB d' hd'
        have hnew : (B ++ [ArenaNode.internal none none])[A.length]? =
            some (ArenaNode.internal none none) := by
          rw [← hlenB]
          exact List.getElem?_concat_length B _
        have hall : ∀ d' ∈ qrest ++ [A.length],
            (B ++ [ArenaNode.internal none none])[d']? =
              some (ArenaNode.internal none none) := by
          intro d' hd'
          rcases List.mem_append.mp hd' with h | h
          · exact hqgetB' d' h
          · simp only [List.mem_singleton] at h
            subst h
            exact hnew
        have hpend' : PendingOk (B ++ [ArenaNode.internal none none])
            (qrest ++ [A.length]) := by
          refine ⟨?_, ?_, ?_, ?_⟩
          · rw [List.pairwise_append]
            refine ⟨List.Pairwise.of_cons hpw, List.pairwise_singleton _ _, ?_⟩
            intro a ha b hb
            simp only [List.mem_singleton] at hb
            subst hb
            exact hqbound a ha
          · intro d' hd'
            simp only [List.length_append, List.length_cons, List.length_nil, hlenB]
            rcases List.mem_append.mp hd' with h | h
            · have := hqbound d' h
              omega
            · simp only [List.mem_singleton] at h
              subst h
              omega
          · intro d' hd'
            exact ⟨none, hall d' hd'⟩
          · intro d' hd'
            exact hall d' (List.mem_of_mem_tail hd')
        have hslots' : slots (B ++ [ArenaNode.internal none none])
            (qrest ++ [A.length]) = (rest ++ [l, r]).length := by
          cases qrest with
          | nil =>
            simp only [List.length_nil] at hsl
            simp only [List.nil_append, slots, hnew, List.length_append,
              List.length_cons, List.length_nil]
            omega
          | cons e erest =>
            have he := hqgetB' e (List.mem_cons_self _ _)
            simp only [List.length_cons] at hsl
            simp only [List.cons_append, slots, he, List.length_append,
              List.length_cons, List.length_nil]
            omega
        have happ := ih (rest ++ [l, r]) (B ++ [ArenaNode.internal none none])
          (qrest ++ [A.length]) i chars hm hwr hpend' hslots' hchars
        have hstep : decodeLoop chars (true :: (encode_tree_aux (rest ++ [l, r])).1)
            A (d :: qrest) i =
            decodeLoop chars (encode_tree_aux (rest ++ [l, r])).1
              (B ++ [ArenaNode.internal none none]) (qrest ++ [A.length]) i := by
          simp [decodeLoop, hBj, hBdef]
        rw [hstep, happ]
        have hlen' : (B ++ [ArenaNode.internal none none]).length = A.length + 1 := by
          simp [hlenB]
        rw [hlen']
        have hsnoc := fillN_snoc rest.length B qrest (A.length + 1) hpendB hslotsB
        rw [hlenB] at hsnoc
        have hlq : (rest ++ [l, r]).length = rest.length + 2 := by
          simp
        rw [hlq, hsnoc]
        have hfillstep : fillN ((HuffmanNode.internal w l r :: rest).length)
            A (d :: qrest) A.length =
            fillN rest.length B qrest (A.length + 1) := by
          simp only [List.length_cons, fillN, hBj]
        rw [hfillstep]
        simp only [arenaOf]
        have e1 : A.length + 1 + rest.length = A.length + rest.length + 1 := by omega
        rw [e1]
        have e2 : A.length + rest.length + 1 + 1 = A.length + rest.length + 2 := by omega
        rw [e2]
        simp [List.append_assoc]
theorem arenaOf_toTree :
    ∀ (n : Nat) (q : List HuffmanNode) (P : List ArenaNode) (j fuel : Nat),
      2 * queueSize q + q.length ≤ n →
      (∀ t ∈ q, wfTree t = true) →
      queueSize q ≤ fuel →
      j < q.length →
      arenaToTree fuel (P ++ arenaOf q P.length) (P.length + j) =
        zeroWeights (q.getD j .nil) := by
  intro n
  induction n with
  | zero =>
    intro q P j fuel hn _ _ hj
    match q with
    | [] => simp at hj
    | _ :: _ => simp at hn
  | succ n ih =>
    intro q P j fuel hn hwf hfuel hj
    match q with
    | [] => simp at hj
    | .nil :: rest =>
      exact absurd (hwf .nil (List.mem_cons_self _ _)) (by simp [wfTree])
    | .leaf w v :: rest =>
      match j with
      | 0 =>
        have hq1 : 1 ≤ queueSize (.leaf w v :: rest) := by
          simp [queueSize, HuffmanNode.size]
        match fuel with
        | 0 => omega
        | fu + 1 =>
          simp only [arenaOf, arenaToTree, Nat.add_zero]
          rw [List.getElem?_append_right (le_refl _)]
          simp [zeroWeights]
      | j' + 1 =>
        have hsh : P ++ arenaOf (HuffmanNode.leaf w v :: rest) P.length =
            (P ++ [ArenaNode.leaf v]) ++ arenaOf rest (P ++ [ArenaNode.leaf v]).length := by
          simp only [arenaOf, List.length_append, List.length_cons, List.length_nil]
          simp [List.append_assoc]
        have hidx : P.length + (j' + 1) = (P ++ [ArenaNode.leaf v]).length + j' := by
          simp
          omega
        rw [hsh, hidx]
        rw [ih rest (P ++ [ArenaNode.leaf v]) j' fuel
          (by simp [queueSize, HuffmanNode.size] at hn ⊢; omega)
          (fun t ht => hwf t (List.mem_cons_of_mem _ ht))
          (by simp [queueSize, HuffmanNode.size] at hfuel ⊢; omega)
          (by simp at hj; omega)]
        simp
    | .internal w l r :: rest =>
      have hwfhead := hwf (.internal w l r) (List.mem_cons_self _ _)
      rw [wfTree, Bool.and_eq_true] at hwfhead
      have hm : 2 * queueSize (rest ++ [l, r]) + (rest ++ [l, r]).length ≤ n := by
        simp [queueSize, HuffmanNode.size] at hn ⊢
        omega
      have hwr : ∀ t ∈ rest ++ [l, r], wfTree t = true := by
        intro t ht
        rcases List.mem_append.mp ht with h | h
        · exact hwf t (List.mem_cons_of_mem _ h)
        · rcases List.mem_cons.mp h with h1 | h1
          · subst h1
            exact hwfhead.1
          · simp only [List.mem_singleton] at h1
            subst h1
            exact hwfhead.2
      have hsh : P ++ arenaOf (HuffmanNode.internal w l r :: rest) P.length =
          (P ++ [ArenaNode.internal (some (P.length + rest.length + 1))
              (some (P.length + rest.length + 2))]) ++
            arenaOf (rest ++ [l, r])
              (P ++ [ArenaNode.internal (some (P.length + rest.length + 1))
                (some (P.length + rest.length + 2))]).length := by
        simp only [arenaOf, List.length_append, List.length_cons, List.length_nil]
        simp [List.append_assoc]
      match j with
      | 0 =>
        have hq1 : 1 ≤ queueSize (.internal w l r :: rest) := by
          simp [queueSize, HuffmanNode.size]
          omega
        match fuel with
        | 0 => omega
        | fu + 1 =>
          have hfu : queueSize (rest ++ [l, r]) ≤ fu := by
            simp [queueSize, HuffmanNode.size] at hfuel ⊢
            omega
          have hget : (P ++ arenaOf (HuffmanNode.internal w l r :: rest) P.length)[P.length]? =
              some (ArenaNode.internal (some (P.length + rest.length + 1))
                (some (P.length + rest.length + 2))) := by
            simp only [arenaOf]
            rw [List.getElem?_append_right (le_refl _)]
            simp
          simp only [Nat.add_zero, arenaToTree, hget]
          have hleft := ih (rest ++ [l, r])
            (P ++ [ArenaNode.internal (some (P.length + rest.length + 1))
              (some (P.length + rest.length + 2))]) rest.length fu hm hwr hfu
            (by simp)
          have hright := ih (rest ++ [l, r])
            (P ++ [ArenaNode.internal (some (P.length + rest.length + 1))
              (some (P.length + rest.length + 2))]) (rest.length + 1) fu hm hwr hfu
            (by simp)
          have hidxl : (P ++ [ArenaNode.internal (some (P.length + rest.length + 1))
              (some (P.length + rest.length + 2))]).length + rest.length =
              P.length + rest.length + 1 := by
            simp
            omega
          have hidxr : (P ++ [ArenaNode.internal (some (P.length + rest.length + 1))
              (some (P.length + rest.length + 2))]).length + (rest.length + 1) =
              P.length + rest.length + 2 := by
            simp
            omega
          rw [hidxl] at hleft
          rw [hidxr] at hright
          have hgl : (rest ++ [l, r]).getD rest.length .nil = l := by
            rw [List.getD_eq_getElem?_getD, List.getElem?_append_right (le_refl _)]
            simp
          have hgr : (rest ++ [l, r]).getD (rest.length + 1) .nil = r := by
            rw [List.getD_eq_getElem?_getD, List.getElem?_append_right (by omega)]
            simp
          rw [hgl] at hleft
          rw [hgr] at hright
          rw [hsh, hleft, hright]
          simp [zeroWeights]
      | j' + 1 =>
        have hj' : j' < rest.length := by
          simp at hj
          omega
        have hidx : P.length + (j' + 1) =
            (P ++ [ArenaNode.internal (some (P.length + rest.length + 1))
              (some (P.length + rest.length + 2))]).length + j' := by
          simp
          omega
        rw [hsh, hidx]
        rw [ih (rest ++ [l, r])
          (P ++ [ArenaNode.internal (some (P.length + rest.length + 1))
            (some (P.length + rest.length + 2))]) j' fuel hm hwr
          (by simp [queueSize, HuffmanNode.size] at hfuel ⊢; omega)
          (by simp; omega)]
        have hgd : (rest ++ [l, r])[j']? = rest[j']? := List.getElem?_append_left hj'
        simp [hgd]
/-- C7 amended: for every nonempty Huffman tree in which every internal node
has both children, decoding the serialized form (`decoded_from_header` on
the shape bitstring and character string produced by `encode_tree`) returns
the tree with identical shape and leaf symbols and every weight zero.  (The
claim as stated fails for the empty tree, whose serialized form
`decoded_from_header` rejects — see the counterexample.) -/
theorem header_roundtrip_wf (t : HuffmanNode) (h : wfTree t = true) :
    decoded_from_header (encode_tree t).1 (encode_tree t).2 = .ok (zeroWeights t) := by
  cases t with
  | nil => simp [wfTree] at h
  | leaf w v =>
    simp [encode_tree, encode_tree_aux, decoded_from_header, zeroWeights]
  | internal w l r =>
    rw [wfTree, Bool.and_eq_true] at h
    have hwft : wfTree (.internal w l r) = true := by
      rw [wfTree, Bool.and_eq_true]
      exact h
    -- shape of the encoding
    have henc : encode_tree (.internal w l r) =
        (true :: (encode_tree_aux [l, r]).1, (encode_tree_aux [l, r]).2) := by
      simp [encode_tree, encode_tree_aux]
    -- lengths
    have hlen := encode_tree_aux_length
      (2 * queueSize [HuffmanNode.internal w l r] + 1) [HuffmanNode.internal w l r]
      (le_refl _)
    have hsz : queueSize [HuffmanNode.internal w l r] = (HuffmanNode.internal w l r).size := by
      simp [queueSize]
    have hlv : ([HuffmanNode.internal w l r].map HuffmanNode.leaves).sum =
        (HuffmanNode.internal w l r).leaves := by
      simp
    have hbitslen : (encode_tree (.internal w l r)).1.length =
        (HuffmanNode.internal w l r).size := by
      rw [encode_tree, hlen.1, hsz]
    have hcharslen : (encode_tree (.internal w l r)).2.length =
        (HuffmanNode.internal w l r).leaves := by
      rw [encode_tree, hlen.2, hlv]
    have hrel := wf_size_leaves (.internal w l r) hwft
    have hsizel := wf_size_pos l h.1
    have hsizer := wf_size_pos r h.2
    have hsize3 : 3 ≤ (HuffmanNode.internal w l r).size := by
      simp only [HuffmanNode.size]
      omega
    -- the length guard passes
    have hguard : ¬ (((encode_tree (.internal w l r)).1.length : Int) ≠
        2 * ((encode_tree (.internal w l r)).2.length : Int) - 1) := by
      rw [hbitslen, hcharslen]
      omega
    rw [henc] at hguard ⊢
    have hbl : (true :: (encode_tree_aux [l, r]).1).length =
        (HuffmanNode.internal w l r).size := by
      rw [← hbitslen, henc]
    rw [decoded_from_header]
    rw [if_neg hguard]
    rw [if_neg (by simp)]
    rw [if_neg (by rw [hbl]; omega)]
    rw [if_neg (by simp)]
    -- run the decoder
    have hsim := decode_sim (2 * queueSize [l, r] + 2) [l, r]
      [ArenaNode.internal none none] [0] 0 (encode_tree_aux [l, r]).2
      (le_refl _)
      (by
        intro x hx
        rcases List.mem_cons.mp hx with h1 | h1
        · subst h1; exact h.1
        · simp only [List.mem_singleton] at h1
          subst h1
          exact h.2)
      (by
        refine ⟨List.pairwise_singleton _ _, ?_, ?_, ?_⟩
        · intro d hd
          simp only [List.mem_singleton] at hd
          subst hd
          simp
        · intro d hd
          simp only [List.mem_singleton] at hd
          subst hd
          exact ⟨none, rfl⟩
        · intro d hd
          simp at hd)
      (by rfl)
      (by rw [List.drop_zero])
    simp only [List.tail_cons]
    rw [hsim]
    norm_num
    have hfill : (fillN 2 [ArenaNode.internal none none] [0] 1).1 =
        [ArenaNode.internal (some 1) (some 2)] := by rfl
    rw [hfill]
    -- the final arena is the breadth-first arena of the whole tree
    have harena : [ArenaNode.internal (some 1) (some 2)] ++ arenaOf [l, r] 1 =
        arenaOf [HuffmanNode.internal w l r] 0 := by
      simp [arenaOf]
    rw [harena]
    -- the fuel is the tree size
    have halen2 : (arenaOf [l, r] 1).length = queueSize [l, r] :=
      arenaOf_length (2 * queueSize [l, r] + 2) [l, r] 1 (by simp)
    have hfuel : [ArenaNode.internal (some 1) (some 2)].length + (arenaOf [l, r] 1).length =
        (HuffmanNode.internal w l r).size := by
      rw [halen2]
      simp [queueSize, HuffmanNode.size]
      omega
    rw [hfuel]
    -- read the tree back
    have hread := arenaOf_toTree (2 * queueSize [HuffmanNode.internal w l r] + 1)
      [HuffmanNode.internal w l r] [] 0 ((HuffmanNode.internal w l r).size)
      (le_refl _)
      (by
        intro x hx
        simp only [List.mem_singleton] at hx
        subst hx
        exact hwft)
      (by rw [hsz])
      (by simp)
    simp only [List.nil_append, List.length_nil, Nat.add_zero] at hread
    rw [hread]
    simp

/-- C7 counterexample: for the empty Huffman tree the claim fails —
`encode_tree` yields the empty shape string with no characters, and
`decoded_from_header` raises a `HuffmanDecodeError` (`0 ≠ 2 * 0 - 1`)
instead of returning the decoded empty tree. -/
theorem header_roundtrip_fails_empty_tree :
    decoded_from_header (encode_tree .nil).1 (encode_tree .nil).2 =
      .error (.huffmanDecodeError .charCountMismatch) := by
  simp [encode_tree, encode_tree_aux, decoded_from_header]

/-- Witness for the C7 amended theorem at a two-leaf tree. -/
theorem header_roundtrip_wf_witness :
    wfTree (HuffmanNode.internal 2 (.leaf 1 'E') (.leaf 1 'U')) = true ∧
      decoded_from_header
        (encode_tree (HuffmanNode.internal 2 (.leaf 1 'E') (.leaf 1 'U'))).1
        (encode_tree (HuffmanNode.internal 2 (.leaf 1 'E') (.leaf 1 'U'))).2 =
      .ok (zeroWeights (HuffmanNode.internal 2 (.leaf 1 'E') (.leaf 1 'U'))) :=
  ⟨by rfl, header_roundtrip_wf _ (by rfl)⟩
